import Mathlib

/-!
# Verification of the univariate Newton / bisection root-finding notebook

Shallow embedding of the notebook `01_univar_newton.ipynb`, which computes
the b-th root of a positive number x by minimising the squared loss
L(x_k) = (x_k^b - x)^2 with Newton's method, and compares it against
bisection.  The source functions are `L`, `d1L`, `d2L`, `root_newton` and
`root_binary`; they are embedded polymorphically over a linear ordered
field so the same definitions can be evaluated exactly on `ℚ` and reasoned
about analytically on `ℝ`.  Python's `while` loops are modelled with a
fuel parameter equal to `max_iter`; the loop guard already bounds the
trajectory length by `max_iter`, so this fuel never cuts a run short.
-/

namespace Optimizay

variable {α : Type*} [LinearOrderedField α]

/-- Source: `L = lambda x_k, x, b: (x_k**b - x)**2`. -/
def L (x_k x : α) (b : ℕ) : α := (x_k ^ b - x) ^ 2

/-- Source: `d1L = lambda x_k, x, b: 2*b*(x_k**(b+1) - x*x_k)`. -/
def d1L (x_k x : α) (b : ℕ) : α := 2 * (b : α) * (x_k ^ (b + 1) - x * x_k)

/-- Source: `d2L = lambda x_k, x, b: 2*b*((b+1)*x_k**b - x)`. -/
def d2L (x_k x : α) (b : ℕ) : α := 2 * (b : α) * (((b : α) + 1) * x_k ^ b - x)

/-- The body of `root_newton`'s `while` loop.  `x_k` is the current
iterate, `len` the current length of `x_list`.  Each pass checks
`d1L(x_k, x, b) > tol and len(x_list) < max_iter`, then performs
`x_k -= d1L(x_k, x, b)/d2L(x_k, x, b)` and appends the new iterate. -/
def newtonGo (x : α) (b : ℕ) (tol : α) (max_iter : ℕ) :
    ℕ → α → ℕ → List α
  | 0, _, _ => []
  | fuel + 1, x_k, len =>
    if tol < d1L x_k x b ∧ len < max_iter then
      (x_k - d1L x_k x b / d2L x_k x b) ::
        newtonGo x b tol max_iter fuel (x_k - d1L x_k x b / d2L x_k x b)
          (len + 1)
    else []

/-- Source:
```
def root_newton(x, b, tol=10**-17, max_iter=2000):
    x_k = x / 2
    x_list = [x_k]
    while d1L(x_k, x, b) > tol and len(x_list) < max_iter:
        x_k -= d1L(x_k, x, b)/d2L(x_k, x, b)
        x_list.append(x_k)
    return x_list
``` -/
def root_newton (x : α) (b : ℕ) (tol : α) (max_iter : ℕ) : List α :=
  x / 2 :: newtonGo x b tol max_iter max_iter (x / 2) 1

/-- The body of `root_binary`'s `while` loop.  `mean` is the last appended
value (the loop guard reads it before it is recomputed), `len` the current
length of `x_list`.  Each pass checks `abs(mean**b-x) > tol and
len(x_list) < max_iter`, recomputes `mean = (high + low) / 2`, narrows
`high` (when `mean**b > x`) or `low` (otherwise), and appends `mean`. -/
def binaryGo (x : α) (b : ℕ) (tol : α) (max_iter : ℕ) :
    ℕ → α → α → α → ℕ → List α
  | 0, _, _, _, _ => []
  | fuel + 1, high, low, mean, len =>
    if tol < |mean ^ b - x| ∧ len < max_iter then
      (high + low) / 2 ::
        binaryGo x b tol max_iter fuel
          (if x < ((high + low) / 2) ^ b then (high + low) / 2 else high)
          (if x < ((high + low) / 2) ^ b then low else (high + low) / 2)
          ((high + low) / 2) (len + 1)
    else []

/-- Source:
```
def root_binary(x, b, tol=10**-16, max_iter=2000):
    high = x / 2
    low = 0
    mean = (high + low) / 2
    x_list = [mean]
    while abs(mean**b-x) > tol and len(x_list) < max_iter:
        mean = (high + low) / 2
        if mean**b > x:
            high = mean
        else:
            low = mean
        x_list.append(mean)
    return x_list
``` -/
def root_binary (x : α) (b : ℕ) (tol : α) (max_iter : ℕ) : List α :=
  (x / 2 + 0) / 2 ::
    binaryGo x b tol max_iter max_iter (x / 2) 0 ((x / 2 + 0) / 2) 1

/-- The bisection bracket `(high, low)` held by `root_binary` after `k`
passes of its loop body.  The narrowing decision in the source compares
`mean**b > x` for `mean` the midpoint of the current bracket, so the
bracket evolution is independent of `tol` and of the trajectory. -/
def binBracket (x : α) (b : ℕ) : ℕ → α × α
  | 0 => (x / 2, 0)
  | k + 1 =>
    (if x < (((binBracket x b k).1 + (binBracket x b k).2) / 2) ^ b then
        ((binBracket x b k).1 + (binBracket x b k).2) / 2
      else (binBracket x b k).1,
     if x < (((binBracket x b k).1 + (binBracket x b k).2) / 2) ^ b then
        (binBracket x b k).2
      else ((binBracket x b k).1 + (binBracket x b k).2) / 2)

/-! ## Invariants of the Newton loop -/

lemma newtonGo_length (x tol : α) (b mi : ℕ) :
    ∀ fuel x_k len, (newtonGo x b tol mi fuel x_k len).length ≤ mi - len := by
  intro fuel
  induction fuel with
  | zero => intro x_k len; simp [newtonGo]
  | succ f ih =>
    intro x_k len
    by_cases h : tol < d1L x_k x b ∧ len < mi
    · rw [newtonGo, if_pos h]
      have hrec := ih (x_k - d1L x_k x b / d2L x_k x b) (len + 1)
      have hlen := h.2
      simp only [List.length_cons]
      omega
    · rw [newtonGo, if_neg h]
      simp

lemma newtonGo_chain (x tol : α) (b mi : ℕ) :
    ∀ fuel x_k len,
      List.Chain (fun a c => c = a - d1L a x b / d2L a x b) x_k
        (newtonGo x b tol mi fuel x_k len) := by
  intro fuel
  induction fuel with
  | zero => intro x_k len; rw [newtonGo]; exact List.Chain.nil
  | succ f ih =>
    intro x_k len
    by_cases h : tol < d1L x_k x b ∧ len < mi
    · rw [newtonGo, if_pos h]
      exact List.Chain.cons rfl (ih _ _)
    · rw [newtonGo, if_neg h]
      exact List.Chain.nil

lemma newtonGo_last (x tol : α) (b mi : ℕ) :
    ∀ fuel x_k len, mi + 1 = fuel + len → len ≤ mi →
      d1L ((x_k :: newtonGo x b tol mi fuel x_k len).getLastD 0) x b ≤ tol ∨
        len + (newtonGo x b tol mi fuel x_k len).length = mi := by
  intro fuel
  induction fuel with
  | zero => intro x_k len hfuel hlen; omega
  | succ f ih =>
    intro x_k len hfuel hlen
    by_cases h : tol < d1L x_k x b ∧ len < mi
    · rw [newtonGo, if_pos h]
      have hrec := ih (x_k - d1L x_k x b / d2L x_k x b) (len + 1) (by omega) h.2
      rcases hrec with hr | hr
      · left
        simpa using hr
      · right
        simp only [List.length_cons]
        omega
    · rw [newtonGo, if_neg h]
      rcases not_and_or.mp h with h1 | h2
      · left
        simpa using not_lt.mp h1
      · right
        simp only [List.length_nil]
        omega

lemma newtonGo_dropLast (x tol : α) (b mi : ℕ) :
    ∀ fuel x_k len y,
      y ∈ (x_k :: newtonGo x b tol mi fuel x_k len).dropLast →
        tol < d1L y x b := by
  intro fuel
  induction fuel with
  | zero => intro x_k len y hy; rw [newtonGo] at hy; simp at hy
  | succ f ih =>
    intro x_k len y hy
    by_cases h : tol < d1L x_k x b ∧ len < mi
    · rw [newtonGo, if_pos h] at hy
      rw [List.dropLast_cons₂, List.mem_cons] at hy
      rcases hy with rfl | hy
      · exact h.1
      · exact ih _ (len + 1) y hy
    · rw [newtonGo, if_neg h] at hy
      simp at hy

lemma newtonGo_fuel_mono (x tol : α) (b mi : ℕ) :
    ∀ fuel x_k len,
      newtonGo x b tol mi fuel x_k len <+:
        newtonGo x b tol mi (fuel + 1) x_k len := by
  intro fuel
  induction fuel with
  | zero => intro x_k len; rw [newtonGo]; exact List.nil_prefix
  | succ f ih =>
    intro x_k len
    by_cases h : tol < d1L x_k x b ∧ len < mi
    · rw [newtonGo, if_pos h, newtonGo, if_pos h]
      exact List.cons_prefix_cons.mpr ⟨rfl, ih _ _⟩
    · rw [newtonGo, if_neg h, newtonGo, if_neg h]

lemma newtonGo_fuel_length (x tol : α) (b mi : ℕ) :
    ∀ fuel x_k len,
      (newtonGo x b tol mi (fuel + 1) x_k len).length ≤
        (newtonGo x b tol mi fuel x_k len).length + 1 := by
  intro fuel
  induction fuel with
  | zero =>
    intro x_k len
    by_cases h : tol < d1L x_k x b ∧ len < mi <;> simp [newtonGo, h]
  | succ f ih =>
    intro x_k len
    by_cases h : tol < d1L x_k x b ∧ len < mi
    · rw [newtonGo, if_pos h]
      conv_rhs => rw [newtonGo, if_pos h]
      simp only [List.length_cons]
      exact Nat.succ_le_succ (ih _ _)
    · rw [newtonGo, if_neg h]
      conv_rhs => rw [newtonGo, if_neg h]
      simp

/-! ## Claim C1 -/

/-- C1: for every input with x > 0, b a positive integer, tol > 0 and
max_iter a positive integer, `root_newton` returns the full trajectory:
its first element is x/2, consecutive elements satisfy
x_next = x_k - d1L(x_k, x, b)/d2L(x_k, x, b), the trajectory ends exactly
when d1L(last, x, b) ≤ tol or its length reaches max_iter (whichever
occurs first: every non-final element still had d1L > tol), and its
length never exceeds max_iter. -/
theorem root_newton_trajectory (x tol : ℚ) (b max_iter : ℕ)
    (hx : 0 < x) (hb : 0 < b) (htol : 0 < tol) (hmi : 0 < max_iter) :
    (root_newton x b tol max_iter).head? = some (x / 2) ∧
    List.Chain' (fun a c => c = a - d1L a x b / d2L a x b)
      (root_newton x b tol max_iter) ∧
    (d1L ((root_newton x b tol max_iter).getLastD 0) x b ≤ tol ∨
      (root_newton x b tol max_iter).length = max_iter) ∧
    (∀ y ∈ (root_newton x b tol max_iter).dropLast, tol < d1L y x b) ∧
    (root_newton x b tol max_iter).length ≤ max_iter := by
  refine ⟨rfl, ?_, ?_, ?_, ?_⟩
  · exact newtonGo_chain x tol b max_iter max_iter (x / 2) 1
  · have h := newtonGo_last x tol b max_iter max_iter (x / 2) 1 rfl hmi
    rcases h with h | h
    · exact Or.inl h
    · right
      rw [root_newton, List.length_cons]
      omega
  · exact fun y hy => newtonGo_dropLast x tol b max_iter max_iter (x / 2) 1 y hy
  · have h := newtonGo_length x tol b max_iter max_iter (x / 2) 1
    rw [root_newton, List.length_cons]
    omega

/-- Witness for C1 at the concrete input x = 1, b = 1, tol = 1,
max_iter = 1. -/
theorem root_newton_trajectory_witness :
    ((0:ℚ) < 1 ∧ 0 < 1 ∧ (0:ℚ) < 1 ∧ 0 < 1) ∧
    ((root_newton (1:ℚ) 1 1 1).head? = some (1 / 2) ∧
     List.Chain' (fun a c => c = a - d1L a 1 1 / d2L a 1 1)
       (root_newton (1:ℚ) 1 1 1) ∧
     (d1L ((root_newton (1:ℚ) 1 1 1).getLastD 0) 1 1 ≤ 1 ∨
       (root_newton (1:ℚ) 1 1 1).length = 1) ∧
     (∀ y ∈ (root_newton (1:ℚ) 1 1 1).dropLast, 1 < d1L y 1 1) ∧
     (root_newton (1:ℚ) 1 1 1).length ≤ 1) :=
  ⟨⟨by norm_num, by norm_num, by norm_num, by norm_num⟩,
   root_newton_trajectory 1 1 1 1 (by norm_num) (by norm_num)
     (by norm_num) (by norm_num)⟩

/-! ## Invariants of the bisection loop -/

lemma binBracket_succ_fst (x : α) (b k : ℕ) :
    (binBracket x b (k + 1)).1 =
      if x < (((binBracket x b k).1 + (binBracket x b k).2) / 2) ^ b then
        ((binBracket x b k).1 + (binBracket x b k).2) / 2
      else (binBracket x b k).1 := by
  rw [binBracket]

lemma binBracket_succ_snd (x : α) (b k : ℕ) :
    (binBracket x b (k + 1)).2 =
      if x < (((binBracket x b k).1 + (binBracket x b k).2) / 2) ^ b then
        (binBracket x b k).2
      else ((binBracket x b k).1 + (binBracket x b k).2) / 2 := by
  rw [binBracket]

lemma binBracket_width (x : α) (b : ℕ) :
    ∀ k, (binBracket x b k).1 - (binBracket x b k).2 = x / 2 / 2 ^ k := by
  intro k
  induction k with
  | zero => simp [binBracket]
  | succ n ih =>
    have h2 : (x : α) / 2 / 2 ^ (n + 1) = x / 2 / 2 ^ n / 2 := by
      rw [pow_succ]
      ring
    rw [binBracket_succ_fst, binBracket_succ_snd, h2, ← ih]
    split_ifs with h <;> ring

lemma binBracket_le (x : α) (b : ℕ) (hx : 0 ≤ x) (k : ℕ) :
    (binBracket x b k).2 ≤ (binBracket x b k).1 := by
  have hw := binBracket_width x b k
  have hpos : 0 ≤ x / 2 / 2 ^ k := by positivity
  linarith

lemma binBracket_low_nonneg (x : α) (b : ℕ) (hx : 0 ≤ x) :
    ∀ k, 0 ≤ (binBracket x b k).2 := by
  intro k
  induction k with
  | zero => simp [binBracket]
  | succ n ih =>
    have hle := binBracket_le x b hx n
    rw [binBracket_succ_snd]
    split_ifs with h
    · exact ih
    · linarith

lemma binBracket_high_le (x : α) (b : ℕ) (hx : 0 ≤ x) :
    ∀ k, (binBracket x b k).1 ≤ x / 2 := by
  intro k
  induction k with
  | zero => simp [binBracket]
  | succ n ih =>
    have hle := binBracket_le x b hx n
    rw [binBracket_succ_fst]
    split_ifs with h
    · linarith
    · exact ih

lemma binaryGo_length (x tol : α) (b mi : ℕ) :
    ∀ fuel high low mean len,
      (binaryGo x b tol mi fuel high low mean len).length ≤ mi - len := by
  intro fuel
  induction fuel with
  | zero => intro high low mean len; simp [binaryGo]
  | succ f ih =>
    intro high low mean len
    by_cases h : tol < |mean ^ b - x| ∧ len < mi
    · rw [binaryGo, if_pos h]
      have hrec := ih
        (if x < ((high + low) / 2) ^ b then (high + low) / 2 else high)
        (if x < ((high + low) / 2) ^ b then low else (high + low) / 2)
        ((high + low) / 2) (len + 1)
      have hlen := h.2
      simp only [List.length_cons]
      omega
    · rw [binaryGo, if_neg h]
      simp

lemma binaryGo_last (x tol : α) (b mi : ℕ) :
    ∀ fuel high low mean len, mi + 1 = fuel + len → len ≤ mi →
      |((mean :: binaryGo x b tol mi fuel high low mean len).getLastD 0) ^ b - x| ≤ tol ∨
        len + (binaryGo x b tol mi fuel high low mean len).length = mi := by
  intro fuel
  induction fuel with
  | zero => intro high low mean len hfuel hlen; omega
  | succ f ih =>
    intro high low mean len hfuel hlen
    by_cases h : tol < |mean ^ b - x| ∧ len < mi
    · rw [binaryGo, if_pos h]
      have hrec := ih
        (if x < ((high + low) / 2) ^ b then (high + low) / 2 else high)
        (if x < ((high + low) / 2) ^ b then low else (high + low) / 2)
        ((high + low) / 2) (len + 1) (by omega) h.2
      rcases hrec with hr | hr
      · left
        simpa using hr
      · right
        simp only [List.length_cons]
        omega
    · rw [binaryGo, if_neg h]
      rcases not_and_or.mp h with h1 | h2
      · left
        simpa using not_lt.mp h1
      · right
        simp only [List.length_nil]
        omega

lemma binaryGo_dropLast (x tol : α) (b mi : ℕ) :
    ∀ fuel high low mean len y,
      y ∈ (mean :: binaryGo x b tol mi fuel high low mean len).dropLast →
        tol < |y ^ b - x| := by
  intro fuel
  induction fuel with
  | zero => intro high low mean len y hy; rw [binaryGo] at hy; simp at hy
  | succ f ih =>
    intro high low mean len y hy
    by_cases h : tol < |mean ^ b - x| ∧ len < mi
    · rw [binaryGo, if_pos h] at hy
      rw [List.dropLast_cons₂, List.mem_cons] at hy
      rcases hy with rfl | hy
      · exact h.1
      · exact ih _ _ ((high + low) / 2) (len + 1) y hy
    · rw [binaryGo, if_neg h] at hy
      simp at hy

lemma binaryGo_fuel_mono (x tol : α) (b mi : ℕ) :
    ∀ fuel high low mean len,
      binaryGo x b tol mi fuel high low mean len <+:
        binaryGo x b tol mi (fuel + 1) high low mean len := by
  intro fuel
  induction fuel with
  | zero => intro high low mean len; rw [binaryGo]; exact List.nil_prefix
  | succ f ih =>
    intro high low mean len
    by_cases h : tol < |mean ^ b - x| ∧ len < mi
    · rw [binaryGo, if_pos h, binaryGo, if_pos h]
      exact List.cons_prefix_cons.mpr ⟨rfl, ih _ _ _ _⟩
    · rw [binaryGo, if_neg h, binaryGo, if_neg h]

lemma binaryGo_fuel_length (x tol : α) (b mi : ℕ) :
    ∀ fuel high low mean len,
      (binaryGo x b tol mi (fuel + 1) high low mean len).length ≤
        (binaryGo x b tol mi fuel high low mean len).length + 1 := by
  intro fuel
  induction fuel with
  | zero =>
    intro high low mean len
    by_cases h : tol < |mean ^ b - x| ∧ len < mi <;> simp [binaryGo, h]
  | succ f ih =>
    intro high low mean len
    by_cases h : tol < |mean ^ b - x| ∧ len < mi
    · rw [binaryGo, if_pos h]
      conv_rhs => rw [binaryGo, if_pos h]
      simp only [List.length_cons]
      exact Nat.succ_le_succ (ih _ _ _ _)
    · rw [binaryGo, if_neg h]
      conv_rhs => rw [binaryGo, if_neg h]
      simp

lemma binaryGo_getElem (x tol : α) (b mi : ℕ) :
    ∀ fuel k m len i,
      i < (binaryGo x b tol mi fuel (binBracket x b k).1 (binBracket x b k).2
            m len).length →
      (binaryGo x b tol mi fuel (binBracket x b k).1 (binBracket x b k).2
          m len)[i]? =
        some (((binBracket x b (k + i)).1 + (binBracket x b (k + i)).2) / 2) := by
  intro fuel
  induction fuel with
  | zero => intro k m len i hi; rw [binaryGo] at hi; simp at hi
  | succ f ih =>
    intro k m len i hi
    by_cases h : tol < |m ^ b - x| ∧ len < mi
    · rw [binaryGo, if_pos h] at hi ⊢
      cases i with
      | zero => simp
      | succ j =>
        rw [List.getElem?_cons_succ, ← binBracket_succ_fst, ← binBracket_succ_snd]
        have hj : j < (binaryGo x b tol mi f (binBracket x b (k + 1)).1
            (binBracket x b (k + 1)).2
            (((binBracket x b k).1 + (binBracket x b k).2) / 2) (len + 1)).length := by
          rw [binBracket_succ_fst, binBracket_succ_snd]
          simpa using hi
        have := ih (k + 1) (((binBracket x b k).1 + (binBracket x b k).2) / 2)
          (len + 1) j hj
        have hidx : k + 1 + j = k + (j + 1) := by omega
        rw [hidx] at this
        exact this
    · rw [binaryGo, if_neg h] at hi
      simp at hi

lemma root_binary_getElem (x tol : α) (b mi : ℕ) :
    ∀ i, i + 1 < (root_binary x b tol mi).length →
      (root_binary x b tol mi)[i + 1]? =
        some (((binBracket x b i).1 + (binBracket x b i).2) / 2) := by
  intro i hi
  rw [root_binary] at hi ⊢
  rw [List.getElem?_cons_succ]
  have hfst : (x / 2 : α) = (binBracket x b 0).1 := by rw [binBracket]
  have hsnd : (0 : α) = (binBracket x b 0).2 := by rw [binBracket]
  rw [List.length_cons] at hi
  have hi2 : i < (binaryGo x b tol mi mi (binBracket x b 0).1 (binBracket x b 0).2
      ((x / 2 + 0) / 2) 1).length := by
    rw [← hfst, ← hsnd]
    omega
  have := binaryGo_getElem x tol b mi mi 0 ((x / 2 + 0) / 2) 1 i hi2
  rw [Nat.zero_add] at this
  rw [hfst, hsnd] at this ⊢
  exact this

lemma root_binary_mem (x tol : α) (b mi : ℕ) :
    ∀ y ∈ root_binary x b tol mi,
      ∃ k, y = ((binBracket x b k).1 + (binBracket x b k).2) / 2 := by
  intro y hy
  obtain ⟨n, hn, he⟩ := List.mem_iff_getElem.mp hy
  cases n with
  | zero =>
    refine ⟨0, ?_⟩
    have he2 : (root_binary x b tol mi)[0]? = some y := by
      rw [List.getElem?_eq_getElem hn, he]
    rw [root_binary] at he2
    simp only [List.getElem?_cons_zero, Option.some_inj] at he2
    rw [← he2, binBracket]
  | succ i =>
    have hq := root_binary_getElem x tol b mi i hn
    have he2 : (root_binary x b tol mi)[i + 1]? = some y := by
      rw [List.getElem?_eq_getElem hn, he]
    rw [he2] at hq
    exact ⟨i, Option.some_inj.mp hq⟩

/-! ## Claim C2 -/

/-- C2: for every input with x > 0, b a positive integer, tol > 0 and
max_iter a positive integer, `root_binary` starts from high = x/2,
low = 0, its first trajectory element is (high + low)/2 = x/4, every
later element i+1 is the midpoint of the bracket `binBracket x b i`
obtained by narrowing high (when mean^b > x) or low (otherwise) i times
from (x/2, 0), the loop runs while |mean^b - x| > tol and the length is
below max_iter (so every non-final element y has |y^b - x| > tol, the
final element y has |y^b - x| ≤ tol unless the length cap was reached),
and the full trajectory is returned. -/
theorem root_binary_trajectory (x tol : ℚ) (b max_iter : ℕ)
    (hx : 0 < x) (hb : 0 < b) (htol : 0 < tol) (hmi : 0 < max_iter) :
    (root_binary x b tol max_iter).head? = some (x / 4) ∧
    binBracket x b 0 = (x / 2, 0) ∧
    (∀ k, binBracket x b (k + 1) =
      (if x < (((binBracket x b k).1 + (binBracket x b k).2) / 2) ^ b then
          ((binBracket x b k).1 + (binBracket x b k).2) / 2
        else (binBracket x b k).1,
       if x < (((binBracket x b k).1 + (binBracket x b k).2) / 2) ^ b then
          (binBracket x b k).2
        else ((binBracket x b k).1 + (binBracket x b k).2) / 2)) ∧
    (∀ i, i + 1 < (root_binary x b tol max_iter).length →
      (root_binary x b tol max_iter)[i + 1]? =
        some (((binBracket x b i).1 + (binBracket x b i).2) / 2)) ∧
    (|((root_binary x b tol max_iter).getLastD 0) ^ b - x| ≤ tol ∨
      (root_binary x b tol max_iter).length = max_iter) ∧
    (∀ y ∈ (root_binary x b tol max_iter).dropLast, tol < |y ^ b - x|) ∧
    (root_binary x b tol max_iter).length ≤ max_iter := by
  refine ⟨?_, rfl, fun k => by rw [binBracket], root_binary_getElem x tol b max_iter,
    ?_, ?_, ?_⟩
  · rw [root_binary]
    simp only [List.head?_cons, Option.some_inj]
    ring
  · have h := binaryGo_last x tol b max_iter max_iter (x / 2) 0 ((x / 2 + 0) / 2) 1
      rfl hmi
    rw [← root_binary] at h
    rcases h with h | h
    · exact Or.inl h
    · right
      rw [root_binary, List.length_cons]
      omega
  · intro y hy
    rw [root_binary] at hy
    exact binaryGo_dropLast x tol b max_iter max_iter (x / 2) 0 ((x / 2 + 0) / 2) 1
      y hy
  · have h := binaryGo_length x tol b max_iter max_iter (x / 2) 0 ((x / 2 + 0) / 2) 1
    rw [root_binary, List.length_cons]
    omega

/-- Witness for C2 at the concrete input x = 1, b = 1, tol = 1,
max_iter = 1. -/
theorem root_binary_trajectory_witness :
    ((0:ℚ) < 1 ∧ 0 < 1 ∧ (0:ℚ) < 1 ∧ 0 < 1) ∧
    ((root_binary (1:ℚ) 1 1 1).head? = some (1 / 4) ∧
     binBracket (1:ℚ) 1 0 = (1 / 2, 0) ∧
     (∀ k, binBracket (1:ℚ) 1 (k + 1) =
       (if (1:ℚ) < (((binBracket (1:ℚ) 1 k).1 + (binBracket (1:ℚ) 1 k).2) / 2) ^ 1 then
           ((binBracket (1:ℚ) 1 k).1 + (binBracket (1:ℚ) 1 k).2) / 2
         else (binBracket (1:ℚ) 1 k).1,
        if (1:ℚ) < (((binBracket (1:ℚ) 1 k).1 + (binBracket (1:ℚ) 1 k).2) / 2) ^ 1 then
           (binBracket (1:ℚ) 1 k).2
         else ((binBracket (1:ℚ) 1 k).1 + (binBracket (1:ℚ) 1 k).2) / 2)) ∧
     (∀ i, i + 1 < (root_binary (1:ℚ) 1 1 1).length →
       (root_binary (1:ℚ) 1 1 1)[i + 1]? =
         some (((binBracket (1:ℚ) 1 i).1 + (binBracket (1:ℚ) 1 i).2) / 2)) ∧
     (|((root_binary (1:ℚ) 1 1 1).getLastD 0) ^ 1 - 1| ≤ 1 ∨
       (root_binary (1:ℚ) 1 1 1).length = 1) ∧
     (∀ y ∈ (root_binary (1:ℚ) 1 1 1).dropLast, 1 < |y ^ 1 - 1|) ∧
     (root_binary (1:ℚ) 1 1 1).length ≤ 1) :=
  ⟨⟨by norm_num, by norm_num, by norm_num, by norm_num⟩,
   root_binary_trajectory 1 1 1 1 (by norm_num) (by norm_num)
     (by norm_num) (by norm_num)⟩

/-! ## Claim C8 -/

/-- C8: in `root_binary`, for every input with x > 0, the bracket
invariant 0 ≤ low ≤ high holds before and after every loop iteration
(`binBracket x b k` being the bracket after k iterations), each
iteration exactly halves the bracket width, so after k iterations
high - low = (x/2)/2^k, and the elements that the loop appends to the
trajectory are exactly the midpoints of these brackets. -/
theorem bisection_bracket_invariant (x tol : ℚ) (b max_iter : ℕ)
    (hx : 0 < x) :
    (∀ k, 0 ≤ (binBracket x b k).2 ∧
      (binBracket x b k).2 ≤ (binBracket x b k).1 ∧
      (binBracket x b k).1 - (binBracket x b k).2 = x / 2 / 2 ^ k) ∧
    (∀ i, i + 1 < (root_binary x b tol max_iter).length →
      (root_binary x b tol max_iter)[i + 1]? =
        some (((binBracket x b i).1 + (binBracket x b i).2) / 2)) := by
  refine ⟨fun k => ⟨binBracket_low_nonneg x b hx.le k, binBracket_le x b hx.le k,
    binBracket_width x b k⟩, root_binary_getElem x tol b max_iter⟩

/-- Witness for C8 at the concrete input x = 1, b = 1, tol = 1,
max_iter = 1. -/
theorem bisection_bracket_invariant_witness :
    (0:ℚ) < 1 ∧
    ((∀ k, 0 ≤ (binBracket (1:ℚ) 1 k).2 ∧
       (binBracket (1:ℚ) 1 k).2 ≤ (binBracket (1:ℚ) 1 k).1 ∧
       (binBracket (1:ℚ) 1 k).1 - (binBracket (1:ℚ) 1 k).2 = 1 / 2 / 2 ^ k) ∧
     (∀ i, i + 1 < (root_binary (1:ℚ) 1 1 1).length →
       (root_binary (1:ℚ) 1 1 1)[i + 1]? =
         some (((binBracket (1:ℚ) 1 i).1 + (binBracket (1:ℚ) 1 i).2) / 2))) :=
  ⟨by norm_num, bisection_bracket_invariant 1 1 1 1 (by norm_num)⟩

/-! ## Claim C7 -/

/-- C7: for every input with max_iter positive, the trajectories of both
`root_newton` and `root_binary` are non-empty and bounded in length by
max_iter, and they grow append-only: the run with fuel k (at most k loop
iterations) is a prefix of the run with fuel k + 1, which has at most
one more element, and the returned trajectory is the head element
followed by the fully fueled loop. -/
theorem trajectory_append_only (x tol : ℚ) (b max_iter : ℕ)
    (hmi : 0 < max_iter) :
    root_newton x b tol max_iter ≠ [] ∧
    root_binary x b tol max_iter ≠ [] ∧
    (root_newton x b tol max_iter).length ≤ max_iter ∧
    (root_binary x b tol max_iter).length ≤ max_iter ∧
    root_newton x b tol max_iter =
      x / 2 :: newtonGo x b tol max_iter max_iter (x / 2) 1 ∧
    root_binary x b tol max_iter =
      (x / 2 + 0) / 2 ::
        binaryGo x b tol max_iter max_iter (x / 2) 0 ((x / 2 + 0) / 2) 1 ∧
    (∀ k, newtonGo x b tol max_iter k (x / 2) 1 <+:
      newtonGo x b tol max_iter (k + 1) (x / 2) 1) ∧
    (∀ k, (newtonGo x b tol max_iter (k + 1) (x / 2) 1).length ≤
      (newtonGo x b tol max_iter k (x / 2) 1).length + 1) ∧
    (∀ k, binaryGo x b tol max_iter k (x / 2) 0 ((x / 2 + 0) / 2) 1 <+:
      binaryGo x b tol max_iter (k + 1) (x / 2) 0 ((x / 2 + 0) / 2) 1) ∧
    (∀ k, (binaryGo x b tol max_iter (k + 1) (x / 2) 0 ((x / 2 + 0) / 2) 1).length ≤
      (binaryGo x b tol max_iter k (x / 2) 0 ((x / 2 + 0) / 2) 1).length + 1) := by
  refine ⟨by rw [root_newton]; simp, by rw [root_binary]; simp, ?_, ?_, rfl, rfl,
    fun k => newtonGo_fuel_mono x tol b max_iter k (x / 2) 1,
    fun k => newtonGo_fuel_length x tol b max_iter k (x / 2) 1,
    fun k => binaryGo_fuel_mono x tol b max_iter k (x / 2) 0 ((x / 2 + 0) / 2) 1,
    fun k => binaryGo_fuel_length x tol b max_iter k (x / 2) 0 ((x / 2 + 0) / 2) 1⟩
  · have h := newtonGo_length x tol b max_iter max_iter (x / 2) 1
    rw [root_newton, List.length_cons]
    omega
  · have h := binaryGo_length x tol b max_iter max_iter (x / 2) 0 ((x / 2 + 0) / 2) 1
    rw [root_binary, List.length_cons]
    omega

/-- Witness for C7 at the concrete input x = 1, b = 1, tol = 1,
max_iter = 1. -/
theorem trajectory_append_only_witness :
    0 < 1 ∧
    (root_newton (1:ℚ) 1 1 1 ≠ [] ∧
     root_binary (1:ℚ) 1 1 1 ≠ [] ∧
     (root_newton (1:ℚ) 1 1 1).length ≤ 1 ∧
     (root_binary (1:ℚ) 1 1 1).length ≤ 1 ∧
     root_newton (1:ℚ) 1 1 1 = 1 / 2 :: newtonGo 1 1 1 1 1 (1 / 2) 1 ∧
     root_binary (1:ℚ) 1 1 1 =
       (1 / 2 + 0) / 2 :: binaryGo 1 1 1 1 1 (1 / 2) 0 ((1 / 2 + 0) / 2) 1 ∧
     (∀ k, newtonGo (1:ℚ) 1 1 1 k (1 / 2) 1 <+:
       newtonGo (1:ℚ) 1 1 1 (k + 1) (1 / 2) 1) ∧
     (∀ k, (newtonGo (1:ℚ) 1 1 1 (k + 1) (1 / 2) 1).length ≤
       (newtonGo (1:ℚ) 1 1 1 k (1 / 2) 1).length + 1) ∧
     (∀ k, binaryGo (1:ℚ) 1 1 1 k (1 / 2) 0 ((1 / 2 + 0) / 2) 1 <+:
       binaryGo (1:ℚ) 1 1 1 (k + 1) (1 / 2) 0 ((1 / 2 + 0) / 2) 1) ∧
     (∀ k, (binaryGo (1:ℚ) 1 1 1 (k + 1) (1 / 2) 0 ((1 / 2 + 0) / 2) 1).length ≤
       (binaryGo (1:ℚ) 1 1 1 k (1 / 2) 0 ((1 / 2 + 0) / 2) 1).length + 1)) :=
  ⟨by norm_num, trajectory_append_only 1 1 1 1 (by norm_num)⟩

/-! ## Claim C10 -/

/-- C10: the loop body of `root_binary` recomputes mean from the still
unchanged bounds before narrowing, so whenever the body runs at least
once (|(x/4)^b - x| > tol and max_iter ≥ 2) the second trajectory
element equals the first: both are x/4. -/
theorem binary_repeated_first_element (x tol : ℚ) (b max_iter : ℕ)
    (h : tol < |(x / 4) ^ b - x|) (hmi : 2 ≤ max_iter) :
    (root_binary x b tol max_iter).take 2 = [x / 4, x / 4] := by
  obtain ⟨f, rfl⟩ : ∃ f, max_iter = f + 1 := ⟨max_iter - 1, by omega⟩
  have e : (x / 2 + (0:ℚ)) / 2 = x / 4 := by ring
  rw [root_binary, e, binaryGo, if_pos ⟨h, by omega⟩, e]
  simp

/-- Witness for C10 at the concrete input x = 144, b = 2, tol = 1/10^9,
max_iter = 2000. -/
theorem binary_repeated_first_element_witness :
    ((1:ℚ) / 10 ^ 9 < |((144:ℚ) / 4) ^ 2 - 144| ∧ 2 ≤ 2000) ∧
    (root_binary (144:ℚ) 2 (1 / 10 ^ 9) 2000).take 2 = [144 / 4, 144 / 4] :=
  ⟨⟨by norm_num, by norm_num⟩,
   binary_repeated_first_element 144 (1 / 10 ^ 9) 2 2000 (by norm_num)
     (by norm_num)⟩

/-! ## Behaviour of the Newton guard at the starting guess -/

lemma root_newton_of_le (x tol : α) (b mi : ℕ) (h : d1L (x / 2) x b ≤ tol) :
    root_newton x b tol mi = [x / 2] := by
  cases mi with
  | zero => rw [root_newton, newtonGo]
  | succ f =>
    rw [root_newton, newtonGo, if_neg]
    rintro ⟨h1, h2⟩
    exact absurd h1 (not_lt.mpr h)

lemma d1L_half_one_nonpos (x : α) : d1L (x / 2) x 1 ≤ 0 := by
  have he : d1L (x / 2) x 1 = -(x ^ 2) / 2 := by
    rw [d1L]
    push_cast
    ring
  have hs := sq_nonneg x
  rw [he]
  linarith

/-! ## Claim C6 -/

/-- C6: for x = 144, b = 2, tol = 1e-9 and the default max_iter = 2000,
`root_newton` stops after 11 trajectory elements with its final element
within 1e-9 of 12, and `root_binary` stops after 41 trajectory elements
with its final element within 2.2e-11 of 12 (the exact distance is
3/2^37 ≈ 2.18e-11). -/
theorem validation_x144_b2 :
    (root_newton (144:ℚ) 2 (1 / 10 ^ 9) 2000).length = 11 ∧
    |(root_newton (144:ℚ) 2 (1 / 10 ^ 9) 2000).getLastD 0 - 12| ≤ 1 / 10 ^ 9 ∧
    (root_binary (144:ℚ) 2 (1 / 10 ^ 9) 2000).length = 41 ∧
    |(root_binary (144:ℚ) 2 (1 / 10 ^ 9) 2000).getLastD 0 - 12| ≤ 22 / 10 ^ 12 := by
  refine ⟨?_, ?_, ?_, ?_⟩ <;> with_unfolding_all decide

/-! ## Claim C4 -/

/-- C4 counterexample: at x = 100, b = 1, tol = 1e-9, max_iter = 2000,
`root_newton` returns the single-element trajectory [50], whose final
element 50 is not within the tolerance of x = 100, refuting the claim
that for b = 1 both methods converge to x itself. -/
theorem b_one_convergence_counterexample :
    root_newton (100:ℚ) 1 (1 / 10 ^ 9) 2000 = [50] ∧
    ¬(|(50:ℚ) - 100| ≤ 1 / 10 ^ 9) := by
  constructor
  · with_unfolding_all decide
  · with_unfolding_all decide

/-- C4 (amended): for b = 1 and every x > 0, tol > 0, max_iter > 0,
neither method converges to x: `root_newton` performs no iteration and
returns [x/2] (its guard d1L(x/2, x, 1) = -x²/2 is already ≤ tol), every
element of `root_binary`'s trajectory lies in the initial bracket
[0, x/2], and hence as soon as x > 2·tol no trajectory element of either
method — in particular no final element — is within tol of x. -/
theorem b_one_no_identity_convergence (x tol : ℚ) (mi : ℕ)
    (hx : 0 < x) (htol : 0 < tol) (hmi : 0 < mi) :
    root_newton x 1 tol mi = [x / 2] ∧
    (∀ y ∈ root_binary x 1 tol mi, 0 ≤ y ∧ y ≤ x / 2) ∧
    (2 * tol < x → ¬(|(root_newton x 1 tol mi).getLastD 0 - x| ≤ tol)) ∧
    (2 * tol < x → ∀ y ∈ root_binary x 1 tol mi, ¬(|y - x| ≤ tol)) := by
  have hin : ∀ y ∈ root_binary x 1 tol mi, 0 ≤ y ∧ y ≤ x / 2 := by
    intro y hy
    obtain ⟨k, rfl⟩ := root_binary_mem x tol 1 mi y hy
    have h1 := binBracket_low_nonneg x 1 hx.le k
    have h2 := binBracket_le x 1 hx.le k
    have h3 := binBracket_high_le x 1 hx.le k
    constructor <;> linarith
  refine ⟨root_newton_of_le x tol 1 mi
      (le_trans (d1L_half_one_nonpos x) htol.le), hin, ?_, ?_⟩
  · intro hgap habs
    rw [root_newton_of_le x tol 1 mi
      (le_trans (d1L_half_one_nonpos x) htol.le)] at habs
    have hsingle : ([x / 2] : List ℚ).getLastD 0 = x / 2 := rfl
    rw [hsingle] at habs
    rw [abs_le] at habs
    have := habs.1
    linarith
  · intro hgap y hy habs
    have hb := (hin y hy).2
    rw [abs_le] at habs
    have := habs.1
    linarith

/-- Witness for C4 (amended) at the concrete input x = 100, tol = 1e-9,
max_iter = 2000. -/
theorem b_one_no_identity_convergence_witness :
    ((0:ℚ) < 100 ∧ (0:ℚ) < 1 / 10 ^ 9 ∧ 0 < 2000) ∧
    (root_newton (100:ℚ) 1 (1 / 10 ^ 9) 2000 = [100 / 2] ∧
     (∀ y ∈ root_binary (100:ℚ) 1 (1 / 10 ^ 9) 2000, 0 ≤ y ∧ y ≤ 100 / 2) ∧
     (2 * (1 / 10 ^ 9 : ℚ) < 100 →
       ¬(|(root_newton (100:ℚ) 1 (1 / 10 ^ 9) 2000).getLastD 0 - 100| ≤ 1 / 10 ^ 9)) ∧
     (2 * (1 / 10 ^ 9 : ℚ) < 100 →
       ∀ y ∈ root_binary (100:ℚ) 1 (1 / 10 ^ 9) 2000, ¬(|y - 100| ≤ 1 / 10 ^ 9))) :=
  ⟨⟨by norm_num, by norm_num, by norm_num⟩,
   b_one_no_identity_convergence 100 (1 / 10 ^ 9) 2000 (by norm_num)
     (by norm_num) (by norm_num)⟩

/-! ## Claim C9 -/

/-- C9: `root_newton`'s loop guard tests the signed value
d1L(x_k, x, b) > tol, not its absolute value, so whenever
d1L(x/2, x, b) ≤ tol the function performs no iteration and returns the
single-element trajectory [x/2]; in particular d1L(x/2, x, b) ≤ 0
whenever (x/2)^b ≤ x, which holds for every 0 < x ≤ 2^(b/(b-1)) when
b ≥ 2, and for every x > 0 when b = 1. -/
theorem newton_guard_is_signed :
    (∀ (x tol : ℚ) (b mi : ℕ), d1L (x / 2) x b ≤ tol →
      root_newton x b tol mi = [x / 2]) ∧
    (∀ (x : ℝ) (b : ℕ), 0 < x → (x / 2) ^ b ≤ x → d1L (x / 2) x b ≤ 0) ∧
    (∀ (x : ℝ) (b : ℕ), 2 ≤ b → 0 < x →
      x ≤ (2:ℝ) ^ ((b : ℝ) / ((b : ℝ) - 1)) → (x / 2) ^ b ≤ x) ∧
    (∀ x : ℝ, 0 < x → d1L (x / 2) x 1 ≤ 0) := by
  refine ⟨fun x tol b mi h => root_newton_of_le x tol b mi h, ?_, ?_,
    fun x _ => d1L_half_one_nonpos x⟩
  · intro x b hx hle
    have hfactor : d1L (x / 2) x b = 2 * (b : ℝ) * (x / 2) * ((x / 2) ^ b - x) := by
      rw [d1L]
      ring
    rw [hfactor]
    exact mul_nonpos_iff.mpr (Or.inl ⟨by positivity, by linarith⟩)
  · intro x b hb hx hle
    have hb2 : (2:ℝ) ≤ (b : ℝ) := by exact_mod_cast hb
    have hb1 : (1:ℝ) ≤ (b : ℝ) - 1 := by linarith
    have hcast : ((b - 1 : ℕ) : ℝ) = (b : ℝ) - 1 := by
      have h1 : 1 ≤ b := by omega
      rw [Nat.cast_sub h1, Nat.cast_one]
    have hexp : (b : ℝ) / ((b : ℝ) - 1) * ((b - 1 : ℕ) : ℝ) = (b : ℝ) := by
      rw [hcast]
      field_simp
    have hpow : x ^ (b - 1) ≤ (2:ℝ) ^ b := by
      calc x ^ (b - 1) ≤ ((2:ℝ) ^ ((b : ℝ) / ((b : ℝ) - 1))) ^ (b - 1) :=
            pow_le_pow_left₀ hx.le hle (b - 1)
        _ = (2:ℝ) ^ ((b : ℝ) / ((b : ℝ) - 1) * ((b - 1 : ℕ) : ℝ)) := by
            rw [← Real.rpow_natCast ((2:ℝ) ^ ((b : ℝ) / ((b : ℝ) - 1))) (b - 1),
              ← Real.rpow_mul (by norm_num)]
        _ = (2:ℝ) ^ ((b : ℝ)) := by rw [hexp]
        _ = (2:ℝ) ^ b := Real.rpow_natCast 2 b
    have hxb : x ^ b ≤ x * 2 ^ b := by
      have hsplit : x ^ b = x * x ^ (b - 1) := by
        rw [← pow_succ']
        congr 1
        omega
      rw [hsplit]
      exact mul_le_mul_of_nonneg_left hpow hx.le
    rw [div_pow, div_le_iff₀ (by positivity)]
    linarith

/-! ## Derivatives of the squared loss (claim C3) -/

lemma L_deriv_two (x : ℝ) :
    deriv (fun y : ℝ => L y x 2) = fun y : ℝ => d1L y x 2 := by
  funext y
  have hy : HasDerivAt (fun z : ℝ => z ^ 2 - x) (2 * y) y := by
    simpa using (hasDerivAt_pow 2 y).sub_const x
  have h : HasDerivAt (fun z : ℝ => (z ^ 2 - x) ^ 2)
      ((2 : ℝ) * (y ^ 2 - x) * (2 * y)) y := by
    simpa using hy.pow 2
  have hL : HasDerivAt (fun z : ℝ => L z x 2)
      ((2 : ℝ) * (y ^ 2 - x) * (2 * y)) y := h
  rw [hL.deriv, d1L]
  push_cast
  ring

lemma d1L_deriv_two (x x_k : ℝ) :
    deriv (fun y : ℝ => d1L y x 2) x_k = d2L x_k x 2 := by
  have h3 : HasDerivAt (fun y : ℝ => y ^ 3) (3 * x_k ^ 2) x_k := by
    simpa using hasDerivAt_pow 3 x_k
  have hxl : HasDerivAt (fun y : ℝ => x * y) x x_k := by
    simpa using (hasDerivAt_id x_k).const_mul x
  have h : HasDerivAt (fun y : ℝ => 4 * (y ^ 3 - x * y))
      (4 * (3 * x_k ^ 2 - x)) x_k := by
    simpa using (h3.sub hxl).const_mul (4 : ℝ)
  have he : (fun y : ℝ => d1L y x 2) = fun y : ℝ => 4 * (y ^ 3 - x * y) := by
    funext y
    rw [d1L]
    push_cast
    ring
  rw [he, h.deriv, d2L]
  push_cast
  ring

/-- C3 counterexample: at b = 1, x = 0, x_k = 2, the implemented formula
d1L(x_k, x, b) = 2b(x_k^(b+1) - x·x_k) evaluates to 8, while the true
first derivative of L(x_k) = (x_k^b - x)^2 at that point is 4, so the
implemented formulas are not the derivatives of the squared loss for
every positive integer b. -/
theorem d1L_is_not_the_derivative :
    deriv (fun y : ℝ => L y 0 1) 2 ≠ d1L (2 : ℝ) 0 1 := by
  have h1 : (fun y : ℝ => L y 0 1) = fun y : ℝ => y ^ 2 := by
    funext y
    rw [L]
    norm_num
  have h2 : deriv (fun y : ℝ => L y 0 1) 2 = 4 := by
    rw [h1, deriv_pow]
    norm_num
  have h3 : d1L (2 : ℝ) 0 1 = 8 := by
    rw [d1L]
    norm_num
  rw [h2, h3]
  norm_num

/-- C3 (amended): for the exponent b = 2 (the value the notebook runs),
d1L is the first derivative of the squared loss L(x_k) = (x_k^2 - x)^2
with respect to x_k, and d2L is its second derivative; for general b the
implemented formulas 2b(x_k^(b+1) - x·x_k) and 2b((b+1)x_k^b - x) do not
agree with the derivatives. -/
theorem L_derivatives_b_two (x_k x : ℝ) :
    deriv (fun y : ℝ => L y x 2) x_k = d1L x_k x 2 ∧
    deriv (deriv (fun y : ℝ => L y x 2)) x_k = d2L x_k x 2 := by
  constructor
  · rw [L_deriv_two x]
  · rw [L_deriv_two x]
    exact d1L_deriv_two x x_k

/-! ## Claim C5 -/

/-- C5 counterexample: at x = 2, b = 2 the 2nd root of x is √2 ≈ 1.414,
which exceeds the upper end x/2 = 1 of `root_binary`'s initial bracket
[0, x/2], so the bracketing precondition does not hold for all x ≥ 1 and
b ≥ 2. -/
theorem bracket_precondition_counterexample :
    ¬((2 : ℝ) ^ (1 / ((2 : ℕ) : ℝ)) ≤ (binBracket (2 : ℝ) 2 0).1) := by
  have hb : (binBracket (2 : ℝ) 2 0).1 = 1 := by
    rw [binBracket]
    norm_num
  rw [hb, not_le]
  have h2 : (1 / ((2 : ℕ) : ℝ)) = (1 / 2 : ℝ) := by norm_num
  rw [h2]
  exact (Real.one_lt_rpow_iff_of_pos (by norm_num)).mpr
    (Or.inl ⟨by norm_num, by norm_num⟩)

/-- C5 (amended): for every real x ≥ 4 and every integer b ≥ 2, the b-th
root of x lies inside `root_binary`'s initial bracket
(binBracket x b 0) = (x/2, 0): 0 ≤ x^(1/b) ≤ x/2.  (For 1 ≤ x < 4 and
b = 2 the precondition can fail, as the counterexample x = 2 shows.) -/
theorem bracket_precondition_amended (x : ℝ) (b : ℕ)
    (hx : 4 ≤ x) (hb : 2 ≤ b) :
    (binBracket x b 0).2 ≤ x ^ (1 / (b : ℝ)) ∧
    x ^ (1 / (b : ℝ)) ≤ (binBracket x b 0).1 := by
  have hx0 : (0 : ℝ) < x := by linarith
  have hx1 : (1 : ℝ) ≤ x := by linarith
  have hsnd : (binBracket x b 0).2 = 0 := by rw [binBracket]
  have hfst : (binBracket x b 0).1 = x / 2 := by rw [binBracket]
  rw [hsnd, hfst]
  refine ⟨Real.rpow_nonneg hx0.le _, ?_⟩
  have hb2 : (2 : ℝ) ≤ (b : ℝ) := by exact_mod_cast hb
  have hmono : x ^ (1 / (b : ℝ)) ≤ x ^ (1 / (2 : ℝ)) := by
    apply Real.rpow_le_rpow_of_exponent_le hx1
    exact one_div_le_one_div_of_le (by norm_num) hb2
  have hsq : (x ^ (1 / (2 : ℝ))) * (x ^ (1 / (2 : ℝ))) = x := by
    have h := Real.rpow_natCast (x ^ (1 / (2 : ℝ))) 2
    rw [← Real.rpow_mul hx0.le] at h
    norm_num at h
    nlinarith [h]
  have hnn : 0 ≤ x ^ (1 / (2 : ℝ)) := Real.rpow_nonneg hx0.le _
  calc x ^ (1 / (b : ℝ)) ≤ x ^ (1 / (2 : ℝ)) := hmono
    _ ≤ x / 2 := by nlinarith [hsq, hnn, hx, sq_nonneg (x ^ (1 / (2 : ℝ)) - 2)]

/-- Witness for C5 (amended) at the concrete input x = 4, b = 2. -/
theorem bracket_precondition_amended_witness :
    ((4 : ℝ) ≤ 4 ∧ 2 ≤ 2) ∧
    ((binBracket (4 : ℝ) 2 0).2 ≤ (4 : ℝ) ^ (1 / ((2 : ℕ) : ℝ)) ∧
     (4 : ℝ) ^ (1 / ((2 : ℕ) : ℝ)) ≤ (binBracket (4 : ℝ) 2 0).1) :=
  ⟨⟨le_refl 4, le_refl 2⟩,
   bracket_precondition_amended 4 2 (le_refl 4) (le_refl 2)⟩

end Optimizay
